import Mathlib

/-
Shallow embedding of the GIF decoder in src/gif_decode.cpp (repository
marethyu/mygif).  Pure helper functions of the source become Lean
functions; the stateful LZW decode loop and the playback loop become
explicit state-passing functions.  Machine integers are modelled as Nat
(all quantities involved stay well below any overflow boundary: codes are
at most 12 bits, colors 8 bits, RGBA values 32 bits assembled from bytes).
Unchecked reads past the end of a buffer (undefined behavior in the C++
source) are modelled with default values (List.getD) or with an explicit
stuck/none outcome where the C++ program would crash.
-/

namespace GifDecode

/-- RGB color entry of a color table (struct Color in the source). -/
structure Color where
  r : Nat
  g : Nat
  b : Nat
deriving DecidableEq, Repr

/-- Embeds get_bit: (n and (1 shl p)) != 0. -/
def get_bit (n p : Nat) : Bool :=
  Nat.testBit n p

/-- Embeds get_val: (n shr p) and ((1 shl l) - 1). -/
def get_val (n p l : Nat) : Nat :=
  (n >>> p) &&& (2 ^ l - 1)

/-- Embeds color_rgba: (a shl 24) or (r shl 16) or (g shl 8) or b. -/
def color_rgba (r g b a : Nat) : Nat :=
  (a <<< 24) ||| (r <<< 16) ||| (g <<< 8) ||| b

/- ===== Bit-stream assembly and code fetching ===== -/

/-- The 8 bits of one payload byte, most significant first: the characters
of std::bitset<8>(b).to_string(). -/
def to_bits8 (b : Nat) : List Bool :=
  [b.testBit 7, b.testBit 6, b.testBit 5, b.testBit 4,
   b.testBit 3, b.testBit 2, b.testBit 1, b.testBit 0]

/-- The assembled bit string: for each payload byte in order the source
executes stream = bitset<8>(byte).to_string() + stream, i.e. prepends the
byte's MSB-first bit string to the accumulated stream. -/
def assemble_stream (payload : List Nat) : List Bool :=
  payload.foldl (fun s b => to_bits8 b ++ s) []

/-- Value of a bit string read most-significant-first, as computed by
std::stoi(s, nullptr, 2). -/
def stoi2 (l : List Bool) : Nat :=
  l.foldl (fun a b => 2 * a + cond b 1 0) 0

/-- Embeds fetch_code: pos -= code_size; return stoi(stream.substr(pos,
code_size), nullptr, 2).  Returns the code together with the new pos. -/
def fetch_code (stream : List Bool) (pos code_size : Nat) : Nat × Nat :=
  ((stoi2 (((stream.drop (pos - code_size))).take code_size)), pos - code_size)

/-- Successive fetch_code calls with a given list of code widths, threading
pos exactly as the decode loop does. -/
def fetch_codes (stream : List Bool) : Nat → List Nat → List Nat
  | _, [] => []
  | pos, cs :: ws =>
    (fetch_code stream pos cs).1 :: fetch_codes stream (fetch_code stream pos cs).2 ws

/-- Modelled from the spec: bit i of the payload in LSB-first global bit
order (bit i lives in byte i / 8 at in-byte position i % 8, counted from
the least significant bit). -/
def bitAt (payload : List Nat) (i : Nat) : Bool :=
  (payload.getD (i / 8) 0).testBit (i % 8)

/-- Modelled from the spec: the integer formed by payload bits
[off, off + cs) in LSB-first global bit order. -/
def lsb_first_field (payload : List Nat) (off : Nat) : Nat → Nat
  | 0 => 0
  | cs + 1 => cond (bitAt payload off) 1 0 + 2 * lsb_first_field payload (off + 1) cs

/- ===== LZW code table ===== -/

/-- The LZW code table: std::unordered_map<int, std::vector<int>> modelled
as an association list with pairwise-distinct keys; its length is the
map's size(). -/
abbrev Table := List (Nat × List Nat)

/-- Map assignment table[k] = v: replace the value if the key is present,
otherwise append a new entry. -/
def insertT (t : Table) (k : Nat) (v : List Nat) : Table :=
  if (List.lookup k t).isSome then
    t.map (fun p => if p.1 = k then (k, v) else p)
  else
    t ++ [(k, v)]

/-- Read access table[k] via operator[], which default-inserts an empty
vector when the key is missing: returns the (possibly grown) table and
the value. -/
def mapGet (t : Table) (k : Nat) : Table × List Nat :=
  match List.lookup k t with
  | some v => (t, v)
  | none => (t ++ [(k, [])], [])

/-- Embeds init_table: entries i -> {i} for i < ncolors, then empty
entries for clear_code and eoi_code (the code_size argument is unused, as
in the source). -/
def init_table (ncolors code_size clear_code eoi_code : Nat) : Table :=
  insertT (insertT ((List.range ncolors).foldl (fun t i => insertT t i [i]) [])
    clear_code []) eoi_code []

/- ===== LZW decode loop ===== -/

/-- State of the LZW decode loop in main: the assembled bit stream, the
cursor pos, the current and initial code sizes, the reserved codes, the
palette size, the table, the next-entry counter table_index, the previous
code and the output index stream. -/
structure LZWState where
  stream : List Bool
  pos : Nat
  code_size : Nat
  first_code_size : Nat
  clear_code : Nat
  eoi_code : Nat
  ncolors : Nat
  table : Table
  table_index : Nat
  prev : Nat
  index_stream : List Nat
deriving Repr, DecidableEq

/-- Tail of a loop iteration after the table update: the code-size growth
check (table.size() == (1 shl code_size) and code_size < 12), then
table_index++ and prev = code. -/
def lzw_post (s : LZWState) (t : Table) (ti : Nat) (out : List Nat) (pos1 code : Nat) :
    LZWState :=
  { s with
    table := t
    code_size :=
      if t.length = 2 ^ s.code_size ∧ s.code_size < 12 then s.code_size + 1
      else s.code_size
    table_index := ti + 1
    prev := code
    index_stream := out
    pos := pos1 }

/-- The table-update part of a loop iteration for a code that is neither
the clear code nor the EOI code, mirroring the two branches on
table.find(code) == table.end(). -/
def lzw_install (s : LZWState) (pos1 code : Nat) : LZWState :=
  match List.lookup code s.table with
  | none =>
    let g := mapGet s.table s.prev
    let t2 := insertT g.1 code g.2
    let pv2 := (List.lookup s.prev t2).getD []
    let t3 := insertT t2 code (g.2 ++ [pv2.headD 0])
    let out := s.index_stream ++ (List.lookup code t3).getD []
    lzw_post s t3 code out pos1 code
  | some cv0 =>
    let out := s.index_stream ++ cv0
    let g := mapGet s.table s.prev
    let t2 := insertT g.1 s.table_index g.2
    let cv := (List.lookup code t2).getD []
    let cur := (List.lookup s.table_index t2).getD []
    let t3 := insertT t2 s.table_index (cur ++ [cv.headD 0])
    lzw_post s t3 s.table_index out pos1 code

/-- Result of one iteration of the decode loop: continue, terminate at the
EOI code, or become stuck because fewer than code_size bits remain (where
the C++ program would crash in substr). -/
inductive StepRes where
  | cont : LZWState → StepRes
  | done : LZWState → StepRes
  | stuck : LZWState → StepRes
deriving Repr, DecidableEq

/-- The state carried by a step result. -/
def lzw_resState : StepRes → LZWState
  | .cont s => s
  | .done s => s
  | .stuck s => s

/-- One iteration of the while(true) decode loop: fetch a code; on the
clear code reset the table, code size and table_index and read the next
code as a literal; on the EOI code stop; otherwise update the table (the
source's table.size() >= 4096 guard has an empty body and is a no-op). -/
def lzw_step (s : LZWState) : StepRes :=
  if s.pos < s.code_size then .stuck s
  else
    let f := fetch_code s.stream s.pos s.code_size
    if f.1 = s.clear_code then
      let s1 : LZWState :=
        { s with
          code_size := s.first_code_size
          table := init_table s.ncolors s.first_code_size s.clear_code s.eoi_code
          table_index := s.eoi_code + 1
          pos := f.2 }
      if s1.pos < s1.code_size then .stuck s1
      else
        let f2 := fetch_code s1.stream s1.pos s1.code_size
        .cont { s1 with
                pos := f2.2
                prev := f2.1
                index_stream := s1.index_stream ++ [f2.1] }
    else if f.1 = s.eoi_code then
      .done { s with pos := f.2 }
    else
      .cont (lzw_install s f.2 f.1)

/-- Fueled iteration of the decode loop; the Bool records termination via
the EOI code. -/
def lzw_run : Nat → LZWState → LZWState × Bool
  | 0, s => (s, false)
  | fuel + 1, s =>
    match lzw_step s with
    | .cont s' => lzw_run fuel s'
    | .done s' => (s', true)
    | .stuck s' => (s', false)

/-- The initialization before the decode loop: constants, initial table,
one discarded fetch (assumed to be the clear code) and one literal fetch
pushed onto the index stream.  Returns none when the stream is too short
for those two fetches (the C++ program would crash). -/
def lzw_init (payload : List Nat) (lzw_min ncolors : Nat) : Option LZWState :=
  let stream := assemble_stream payload
  let first_code_size := lzw_min + 1
  let clear_code := 2 ^ lzw_min
  let eoi_code := clear_code + 1
  let table := init_table ncolors first_code_size clear_code eoi_code
  let L := stream.length
  if L < first_code_size then none
  else
    let f1 := fetch_code stream L first_code_size
    if f1.2 < first_code_size then none
    else
      let f2 := fetch_code stream f1.2 first_code_size
      some
        { stream := stream
          pos := f2.2
          code_size := first_code_size
          first_code_size := first_code_size
          clear_code := clear_code
          eoi_code := eoi_code
          ncolors := ncolors
          table := table
          table_index := eoi_code + 1
          prev := f2.1
          index_stream := [f2.1] }

/-- The complete LZW decode of an assembled payload: initialization, then
the loop (with enough fuel, since every iteration consumes at least one
bit); the result is the index stream, or none when the loop did not
terminate at an EOI code. -/
def lzw_decode (payload : List Nat) (lzw_min ncolors : Nat) : Option (List Nat) :=
  match lzw_init payload lzw_min ncolors with
  | none => none
  | some s =>
    match lzw_run (s.pos + 1) s with
    | (s', true) => some s'.index_stream
    | (_, false) => none

/- ===== Header and image-block parsing ===== -/

/-- The expected 3-byte magic of the format ("G", "I", "F"). -/
def gif_magic : List Nat := [0x47, 0x49, 0x46]

/-- Embeds the header check of main, bool bGIF89a = bytes[4] == 0x39: the
input passes the header (the assert succeeds) exactly when byte 4 equals
0x39; bytes past the end read as 0 (unchecked indexing in the source). -/
def bGIF89a (bytes : List Nat) : Bool :=
  bytes.getD 4 0 == 0x39

/-- An Image block (class Image in the source). -/
structure ImageB where
  left : Nat
  top : Nat
  width : Nat
  height : Nat
  interlace : Bool
  ct : List Color
  index : List Nat
deriving Repr, DecidableEq

/-- The sub-block assembly loop of the image-descriptor case: repeatedly
read a 1-byte length, stop at length 0, otherwise collect that many
payload bytes.  Returns the concatenated payload and the cursor just past
the terminating zero length byte.  Reads past the buffer end yield 0, so
a missing terminator stops at the end of the buffer. -/
def readSubBlocksAux (bytes : List Nat) : Nat → Nat → List Nat × Nat
  | 0, idx => ([], idx + 1)
  | fuel + 1, idx =>
    let nbytes := bytes.getD idx 0
    if nbytes = 0 then ([], idx + 1)
    else
      let chunk := (List.range nbytes).map (fun i => bytes.getD (idx + 1 + i) 0)
      let rest := readSubBlocksAux bytes fuel (idx + 1 + nbytes)
      (chunk ++ rest.1, rest.2)

/-- Entry point with enough fuel: each iteration reads at least two bytes
(the nonzero length byte and its data), and a read past the buffer end
yields length 0, which stops the loop, so bytes.length + 1 - idx
iterations always suffice. -/
def readSubBlocks (bytes : List Nat) (idx : Nat) : List Nat × Nat :=
  readSubBlocksAux bytes (bytes.length + 1 - idx) idx

/-- Reads count colors (3 bytes each) starting at idx, as the color-table
loops of main do. -/
def readColors (bytes : List Nat) (idx count : Nat) : List Color :=
  (List.range count).map (fun i =>
    { r := bytes.getD (idx + 3 * i) 0
      g := bytes.getD (idx + 3 * i + 1) 0
      b := bytes.getD (idx + 3 * i + 2) 0 })

/-- Embeds the 0x2C image-descriptor case of main: descriptor fields,
optional local color table (else the global table), the LZW minimum code
size, the sub-block run assembled into a payload, the LZW decode, and the
assert that the index stream has exactly width * height entries (modelled
as a parse failure instead of a crash).  Returns the image and the cursor
after the block on success. -/
def parseImageBlock (bytes : List Nat) (idx0 : Nat) (gct : List Color) :
    Option (ImageB × Nat) :=
  let left := bytes.getD idx0 0 ||| (bytes.getD (idx0 + 1) 0 <<< 8)
  let top := bytes.getD (idx0 + 2) 0 ||| (bytes.getD (idx0 + 3) 0 <<< 8)
  let width := bytes.getD (idx0 + 4) 0 ||| (bytes.getD (idx0 + 5) 0 <<< 8)
  let height := bytes.getD (idx0 + 6) 0 ||| (bytes.getD (idx0 + 7) 0 <<< 8)
  let packed_field := bytes.getD (idx0 + 8) 0
  let interlace := get_bit packed_field 6
  let lct_flag := get_bit packed_field 7
  let lct_size := get_val packed_field 0 3
  let idx1 := idx0 + 9
  let ctData :=
    if lct_flag then
      (readColors bytes idx1 (2 ^ (lct_size + 1)), idx1 + 3 * 2 ^ (lct_size + 1))
    else (gct, idx1)
  let ct := ctData.1
  let idx2 := ctData.2
  let lzw_min := bytes.getD idx2 0
  let sb := readSubBlocks bytes (idx2 + 1)
  match lzw_decode sb.1 lzw_min ct.length with
  | none => none
  | some index_stream =>
    if index_stream.length = width * height then
      some
        ({ left := left, top := top, width := width, height := height
           interlace := interlace, ct := ct, index := index_stream }, sb.2)
    else none

/- ===== Frame compositing ===== -/

/-- Fueled counting loop for (int i = start; i < h; i += step): the list of
loop-counter values; h is always enough fuel for the steps used (8, 4, 2). -/
def rowsFromAux : Nat → Nat → Nat → Nat → List Nat
  | 0, _, _, _ => []
  | fuel + 1, i, stp, h => if i < h then i :: rowsFromAux fuel (i + stp) stp h else []

/-- The loop-counter values of the pass loop starting at i with stride stp
below bound h. -/
def rowsFrom (i stp h : Nat) : List Nat :=
  rowsFromAux h i stp h

/-- The output rows in the order the four interlace pass loops of main
visit them (pass 1: every 8th from 0, pass 2: every 8th from 4, pass 3:
every 4th from 2, pass 4: every 2nd from 1). -/
def interlace_order (h : Nat) : List Nat :=
  rowsFrom 0 8 h ++ rowsFrom 4 8 h ++ rowsFrom 2 4 h ++ rowsFrom 1 2 h

/-- Embeds the row2 array of main: interlaced, each pass-loop iteration
executes row2[i] = row1[j] with row1 the identity and j counting
iterations across the four passes; non-interlaced, row2[i] = i.  (The
array is modelled with initial contents 0; interlaced, every position is
assigned by some pass.) -/
def row2 (interlace : Bool) (h : Nat) : List Nat :=
  if interlace then
    ((interlace_order h).enum).foldl (fun arr p => arr.set p.2 p.1) (List.replicate h 0)
  else
    List.range h

/-- Embeds the per-pixel compositing double loop of main: for each output
pixel (y, x), look up index = img.index[row2[y] * width + x]; unless
transparency is on and the index equals the transparent index, write the
resolved color with alpha 255 at canvas offset (top + y) * canvas_width +
(left + x). -/
def composite (pixels : List Nat) (canvas_width : Nat) (img : ImageB)
    (transparent : Bool) (trans_idx : Nat) : List Nat :=
  let r2 := row2 img.interlace img.height
  (List.range img.height).foldl (fun px y =>
    (List.range img.width).foldl (fun px x =>
      let index := img.index.getD (r2.getD y 0 * img.width + x) 0
      if (transparent && index != trans_idx) || !transparent then
        let c := img.ct.getD index { r := 0, g := 0, b := 0 }
        px.set ((img.top + y) * canvas_width + (img.left + x)) (color_rgba c.r c.g c.b 255)
      else px) px) pixels

/-- Embeds the disposal-method-2 double loop of main: every pixel of the
image rectangle is overwritten with the background color. -/
def clearRect (pixels : List Nat) (canvas_width : Nat) (img : ImageB)
    (bkgd_color : Nat) : List Nat :=
  (List.range img.height).foldl (fun px y =>
    (List.range img.width).foldl (fun px x =>
      px.set ((img.top + y) * canvas_width + (img.left + x)) bkgd_color) px) pixels

/- ===== Playback loop ===== -/

/-- One parsed block, as dispatched by the playback loop of main. -/
inductive GBlock where
  | image : ImageB → GBlock
  | gc : Bool → Bool → Nat → Nat → Nat → GBlock
  | appext : GBlock
  | comment : GBlock
deriving Repr, DecidableEq

/-- The mutable state of the playback loop in main: the canvas, the prev
buffer, and the control variables disposal, transparent, trans_idx and
delay, together with the loop-invariant canvas width and background
color. -/
structure PlayState where
  pixels : List Nat
  prev : List Nat
  disposal : Nat
  transparent : Bool
  trans_idx : Nat
  delay : Nat
  canvas_width : Nat
  bkgd_color : Nat
deriving Repr, DecidableEq

/-- Embeds the background color selection of main: the global-color-table
entry at the background index if the table is present, else white; always
with alpha 255. -/
def bkgd (gct_flag : Bool) (gct : List Color) (bkgd_color_idx : Nat) : Color :=
  if gct_flag then gct.getD bkgd_color_idx { r := 0, g := 0, b := 0 }
  else { r := 255, g := 255, b := 255 }

/-- The packed RGBA background color bkgd_color of main. -/
def bkgd_color (gct_flag : Bool) (gct : List Color) (bkgd_color_idx : Nat) : Nat :=
  color_rgba (bkgd gct_flag gct bkgd_color_idx).r (bkgd gct_flag gct bkgd_color_idx).g
    (bkgd gct_flag gct bkgd_color_idx).b 255

/-- The initial canvas of main: std::vector<uint32_t> pixels(canvas_width *
canvas_height, bkgd_color). -/
def init_pixels (canvas_width canvas_height bc : Nat) : List Nat :=
  List.replicate (canvas_width * canvas_height) bc

/-- The playback state just before the first block is processed, with the
initializations of main: disposal = 2, transparent = false, trans_idx = 0,
delay = 0, prev the empty vector, pixels filled with the background
color. -/
def initPlayState (canvas_width canvas_height bc : Nat) : PlayState :=
  { pixels := init_pixels canvas_width canvas_height bc
    prev := []
    disposal := 2
    transparent := false
    trans_idx := 0
    delay := 0
    canvas_width := canvas_width
    bkgd_color := bc }

/-- Processing of one block by the playback loop of main: an Image block
is composited onto the canvas, the frame is presented, the disposal switch
runs (2 clears the image rectangle to the background color, 3 sets pixels
= prev, others leave the canvas), and then prev = pixels; a
GraphicControl block updates disposal, transparent, delay (scaled by 10)
and, when transparency is on, trans_idx; application-extension and
comment blocks change no playback state. -/
def processBlock (s : PlayState) (b : GBlock) : PlayState :=
  match b with
  | .image img =>
    let px1 := composite s.pixels s.canvas_width img s.transparent s.trans_idx
    let px2 :=
      match s.disposal with
      | 2 => clearRect px1 s.canvas_width img s.bkgd_color
      | 3 => s.prev
      | _ => px1
    { s with pixels := px2, prev := px2 }
  | .gc transparent _user_input disposal_method delay_time color_index =>
    { s with
      disposal := disposal_method
      transparent := transparent
      delay := delay_time * 10
      trans_idx := if transparent then color_index else s.trans_idx }
  | .appext => s
  | .comment => s

/- ===== Concrete states and inputs used by individual theorems ===== -/

/-- A code table holding n entries (keys n-1 down to 0, each mapped to the
singleton sequence {0}); used to exhibit a decode state whose table has
grown to 4096 entries. -/
def fullTable : Nat → Table
  | 0 => []
  | n + 1 => (n, [0]) :: fullTable n

/-- A decode-loop state (lzw_min 2, 4 colors) whose table has reached 4096
entries with table_index 4096, about to read code 0 with code_size 12. -/
def c1state : LZWState :=
  { stream := List.replicate 12 false
    pos := 12
    code_size := 12
    first_code_size := 3
    clear_code := 4
    eoi_code := 5
    ncolors := 4
    table := fullTable 4096
    table_index := 4096
    prev := 0
    index_stream := [] }

/-- A 1x1 non-interlaced image at the canvas origin with a one-entry color
table whose only index is 0. -/
def c4img : ImageB :=
  { left := 0, top := 0, width := 1, height := 1, interlace := false
    ct := [{ r := 1, g := 2, b := 3 }], index := [0] }

/-- A decode-loop state (lzw_min 2, 4 colors) fresh after initialization,
with three zero bits left in the stream. -/
def c5state : LZWState :=
  { stream := List.replicate 3 false
    pos := 3
    code_size := 3
    first_code_size := 3
    clear_code := 4
    eoi_code := 5
    ncolors := 4
    table := init_table 4 3 4 5
    table_index := 6
    prev := 0
    index_stream := [0] }

/-- A playback state in mid-session: a 1x1 canvas whose prev buffer equals
the canvas, with disposal method 3 pending. -/
def c7state : PlayState :=
  { pixels := [5], prev := [5], disposal := 3, transparent := false
    trans_idx := 0, delay := 0, canvas_width := 1, bkgd_color := 9 }

/- ===== Theorems ===== -/

/-- Append preserved by association-list lookup when the key is found on
the left. -/
theorem lookup_append_left {β : Type} (k : Nat) (l1 l2 : List (Nat × β)) (v : β)
    (h : List.lookup k l1 = some v) : List.lookup k (l1 ++ l2) = some v := by
  induction l1 with
  | nil => simp [List.lookup] at h
  | cons p t ih =>
    rw [List.cons_append, List.lookup]
    rw [List.lookup] at h
    cases hk : (k == p.1) with
    | true => simpa [hk] using h
    | false =>
      rw [hk] at h
      simpa [hk] using ih h

/-- Association-list lookup over an append falls through to the right part
when the key is absent on the left. -/
theorem lookup_append_right {β : Type} (k : Nat) (l1 l2 : List (Nat × β))
    (h : List.lookup k l1 = none) : List.lookup k (l1 ++ l2) = List.lookup k l2 := by
  induction l1 with
  | nil => simp
  | cons p t ih =>
    rw [List.cons_append, List.lookup]
    rw [List.lookup] at h
    cases hk : (k == p.1) with
    | true => rw [hk] at h; simp at h
    | false =>
      rw [hk] at h
      simpa [hk] using ih h

/-- Lookup in fullTable n finds {0} exactly below n. -/
theorem lookup_fullTable (n k : Nat) :
    List.lookup k (fullTable n) = if k < n then some [0] else none := by
  induction n with
  | zero => simp [fullTable, List.lookup]
  | succ m ih =>
    rw [fullTable, List.lookup]
    rcases Nat.lt_trichotomy k m with hlt | heq | hgt
    · have hk : (k == m) = false := by simp [Nat.ne_of_lt hlt]
      rw [hk, ih, if_pos hlt, if_pos (Nat.lt_succ_of_lt hlt)]
    · subst heq
      simp
    · have hk : (k == m) = false := by simp [Nat.ne_of_gt hgt]
      have h1 : ¬ k < m := Nat.not_lt_of_gt hgt
      have h2 : ¬ k < m + 1 := by omega
      rw [hk, ih, if_neg h1, if_neg h2]

/-- fullTable n has n entries. -/
theorem fullTable_length (n : Nat) : (fullTable n).length = n := by
  induction n with
  | zero => rfl
  | succ m ih => simp [fullTable, ih]

/-- C2 counterexample: the row-reorder mapping of the code for an
interlaced image of height 8 is not [0,4,2,6,1,5,3,7]: output row 3 reads
source row 5, not 6 (and output row 5 reads source row 6, not 5). -/
theorem interlace_row_mapping_counterexample :
    (row2 true 8).getD 3 0 = 5 ∧ (row2 true 8).getD 5 0 = 6 ∧
    row2 true 8 ≠ [0, 4, 2, 6, 1, 5, 3, 7] := by
  decide

/-- C2 (amended): for an interlaced image of height 8, output rows 0..7
read from source (index-stream) rows [0,4,2,5,1,6,3,7]; equivalently, the
j-th output row visited by the four passes (visit order
[0,4,2,6,1,3,5,7]) reads source row j.  For a non-interlaced image the
mapping is the identity. -/
theorem interlace_row_mapping :
    row2 true 8 = [0, 4, 2, 5, 1, 6, 3, 7] ∧
    interlace_order 8 = [0, 4, 2, 6, 1, 3, 5, 7] ∧
    ∀ h : Nat, row2 false h = List.range h := by
  refine ⟨by decide, by decide, fun h => ?_⟩
  simp [row2]

/-- C3 counterexample: an input whose first 3 bytes are not the format
magic "GIF" (here "XYZ") is accepted past the header, because the source
checks only byte 4. -/
theorem header_check_counterexample :
    bGIF89a [0x58, 0x59, 0x5A, 0x38, 0x39, 0x61] = true ∧
    [0x58, 0x59, 0x5A] ≠ gif_magic := by
  decide

/-- C3 (amended): header validation examines only byte 4 of the input: an
input is accepted past the header exactly when byte 4 equals 0x39 (the
character "9"), regardless of the signature bytes 0..2 and of the version
bytes 3 and 5; there is no separate signature check. -/
theorem header_check_only_byte4 :
    ∀ b0 b1 b2 b3 b5 : Nat, ∀ rest : List Nat,
      bGIF89a (b0 :: b1 :: b2 :: b3 :: 0x39 :: b5 :: rest) = true ∧
      bGIF89a (b0 :: b1 :: b2 :: b3 :: 0x38 :: b5 :: rest) = false := by
  intro b0 b1 b2 b3 b5 rest
  exact ⟨rfl, rfl⟩

/-- C4 counterexample: before any GraphicControl block, playback uses
disposal method 2, not 0: the first image is drawn and then its rectangle
is immediately cleared back to the background color, so a 1x1 canvas ends
as [background], not as the drawn color. -/
theorem playback_defaults_counterexample :
    (initPlayState 1 1 9).disposal = 2 ∧ (initPlayState 1 1 9).disposal ≠ 0 ∧
    (processBlock (initPlayState 1 1 9) (.image c4img)).pixels = [9] ∧
    color_rgba 1 2 3 255 ≠ 9 := by
  decide

/-- C4 (amended): when an Image block is composited before any
GraphicControl block has been encountered in playback, the control
defaults used are disposal = 2 (restore background) and transparency =
off. -/
theorem playback_defaults :
    ∀ cw ch bc : Nat,
      (initPlayState cw ch bc).disposal = 2 ∧
      (initPlayState cw ch bc).transparent = false := by
  intro cw ch bc
  exact ⟨rfl, rfl⟩

/-- C10: when the global-color-table flag is clear, the background color
is opaque white (r = g = b = 255, alpha = 255, packed RGBA value
0xFFFFFFFF), and the playback canvas starts with every pixel holding that
background color. -/
theorem background_white_no_gct :
    ∀ (gct : List Color) (bkgd_color_idx cw ch : Nat),
      bkgd false gct bkgd_color_idx = { r := 255, g := 255, b := 255 } ∧
      bkgd_color false gct bkgd_color_idx = color_rgba 255 255 255 255 ∧
      color_rgba 255 255 255 255 = 0xFFFFFFFF ∧
      (initPlayState cw ch (bkgd_color false gct bkgd_color_idx)).pixels =
        List.replicate (cw * ch) 0xFFFFFFFF := by
  intro gct i cw ch
  refine ⟨rfl, rfl, by decide, ?_⟩
  have hb : bkgd_color false gct i = 0xFFFFFFFF := by
    simp [bkgd_color, bkgd, color_rgba]
  simp [initPlayState, init_pixels, hb]

/-- C9: every Image block produced by the image-descriptor parse has an
index stream of length exactly width * height; a violation (or an LZW
failure) yields no image at all, never a truncated one. -/
theorem parse_index_length :
    ∀ (bytes : List Nat) (idx0 : Nat) (gct : List Color) (img : ImageB) (idx2 : Nat),
      parseImageBlock bytes idx0 gct = some (img, idx2) →
      img.index.length = img.width * img.height := by
  intro bytes idx0 gct img idx2 h
  rw [parseImageBlock] at h
  split at h
  · exact absurd h (by simp)
  · split at h
    · rename_i index_stream hdec hlen
      injection h with h1
      injection h1 with h2 h3
      subst h2
      simpa using hlen
    · exact absurd h (by simp)

/-- C9 witness: a concrete 14-byte image block (1x1 image, 2-color global
table, lzw_min 2, payload 0x4C 0x01 encoding clear, literal 1, EOI)
parses successfully, and the theorem yields that its index stream has
length 1 = 1 * 1. -/
theorem parse_index_length_witness :
    parseImageBlock [0, 0, 0, 0, 1, 0, 1, 0, 0, 2, 2, 0x4C, 0x01, 0] 0
        [{ r := 10, g := 20, b := 30 }, { r := 40, g := 50, b := 60 }] =
      some ({ left := 0, top := 0, width := 1, height := 1, interlace := false
              ct := [{ r := 10, g := 20, b := 30 }, { r := 40, g := 50, b := 60 }]
              index := [1] }, 14) ∧
    ({ left := 0, top := 0, width := 1, height := 1, interlace := false
       ct := [{ r := 10, g := 20, b := 30 }, { r := 40, g := 50, b := 60 }]
       index := [1] } : ImageB).index.length =
      ({ left := 0, top := 0, width := 1, height := 1, interlace := false
         ct := [{ r := 10, g := 20, b := 30 }, { r := 40, g := 50, b := 60 }]
         index := [1] } : ImageB).width *
      ({ left := 0, top := 0, width := 1, height := 1, interlace := false
         ct := [{ r := 10, g := 20, b := 30 }, { r := 40, g := 50, b := 60 }]
         index := [1] } : ImageB).height := by
  refine ⟨by decide, ?_⟩
  exact parse_index_length [0, 0, 0, 0, 1, 0, 1, 0, 0, 2, 2, 0x4C, 0x01, 0] 0
    [{ r := 10, g := 20, b := 30 }, { r := 40, g := 50, b := 60 }] _ 14 (by decide)

/-- C7 counterexample: for the first image of a playback session the prev
buffer is still the empty vector, so disposal method 3 sets the canvas to
the empty buffer instead of restoring the pre-draw snapshot: on a 1x1
canvas with background 9, after a GraphicControl with disposal 3 and a
1x1 image, the canvas ends empty although it held [9] immediately before
the frame was drawn. -/
theorem disposal3_first_frame_counterexample :
    (processBlock (processBlock (initPlayState 1 1 9) (.gc false false 3 0 0))
        (.image c4img)).pixels = [] ∧
    (processBlock (initPlayState 1 1 9) (.gc false false 3 0 0)).pixels = [9] ∧
    ([] : List Nat) ≠ [9] := by
  decide

/-- C7 (amended): the prev buffer is written only at the end of each image
block (prev = pixels after disposal), and no other block kind touches the
canvas or prev; hence for every frame with disposal method 3 other than
the first frame of a session — i.e. whenever prev already equals the
canvas at the start of the image block — the canvas after the frame
equals its pre-draw state.  For the first frame, prev is still the empty
initial buffer (initPlayState sets prev = []), and disposal 3 sets the
canvas to that empty buffer. -/
theorem disposal3_restores_predraw :
    ∀ (s : PlayState) (img : ImageB) (t u : Bool) (d dl ci : Nat),
      (s.disposal = 3 → s.prev = s.pixels →
        (processBlock s (.image img)).pixels = s.pixels) ∧
      (processBlock s (.image img)).prev = (processBlock s (.image img)).pixels ∧
      (processBlock s (.gc t u d dl ci)).pixels = s.pixels ∧
      (processBlock s (.gc t u d dl ci)).prev = s.prev ∧
      (processBlock s .appext).pixels = s.pixels ∧
      (processBlock s .appext).prev = s.prev ∧
      (processBlock s .comment).pixels = s.pixels ∧
      (processBlock s .comment).prev = s.prev ∧
      (∀ cw ch bc : Nat, (initPlayState cw ch bc).prev = []) := by
  intro s img t u d dl ci
  refine ⟨fun h3 hprev => ?_, ?_, rfl, rfl, rfl, rfl, rfl, rfl, fun cw ch bc => rfl⟩
  · simp [processBlock, h3, hprev]
  · simp [processBlock]

/-- C7 witness: in a mid-session 1x1 playback state whose prev buffer
equals the canvas [5], an image frame with disposal 3 leaves the canvas
equal to its pre-draw contents [5]. -/
theorem disposal3_restores_predraw_witness :
    (processBlock c7state (.image c4img)).pixels = c7state.pixels :=
  (disposal3_restores_predraw c7state c4img false false 0 0 0).1 rfl rfl

/-- Effect of the known-code branch of the decode loop on the table size
when the slot at table_index is still free: the table grows by exactly one
entry, with no bound checked. -/
theorem install_known_fresh (s : LZWState) (pos1 code : Nat) (v w : List Nat)
    (hc : List.lookup code s.table = some v)
    (hp : List.lookup s.prev s.table = some w)
    (ht : List.lookup s.table_index s.table = none) :
    (lzw_install s pos1 code).table.length = s.table.length + 1 := by
  have h2 : List.lookup code (s.table ++ [(s.table_index, w)]) = some v :=
    lookup_append_left _ _ _ _ hc
  have h3 : List.lookup s.table_index (s.table ++ [(s.table_index, w)]) = some w := by
    rw [lookup_append_right _ _ _ ht]
    simp [List.lookup]
  simp only [lzw_install, hc, mapGet, hp, insertT, ht, Option.isSome_none,
    Bool.false_eq_true, if_false, h2, h3, Option.isSome_some, if_true, lzw_post]
  simp

/-- C1: the source's guard against table overflow is commented out, so the
code table does grow past 4096 entries: in a decode state whose table has
4096 entries and table_index (next_free) 4096, reading the known code 0
continues decoding and installs a 4097th entry. -/
theorem lzw_table_overflow :
    c1state.table_index = 4096 ∧ c1state.table.length = 4096 ∧
    lzw_step c1state = .cont (lzw_install c1state 0 0) ∧
    (lzw_install c1state 0 0).table.length = 4097 := by
  have hl0 : List.lookup 0 c1state.table = some [0] := by
    show List.lookup 0 (fullTable 4096) = some [0]
    rw [lookup_fullTable]
    norm_num
  have hl4096 : List.lookup 4096 c1state.table = none := by
    show List.lookup 4096 (fullTable 4096) = none
    rw [lookup_fullTable]
    norm_num
  refine ⟨rfl, fullTable_length 4096, rfl, ?_⟩
  have hgrow := install_known_fresh c1state 0 0 [0] [0] hl0 hl0 hl4096
  rw [hgrow]
  show List.length (fullTable 4096) + 1 = 4097
  rw [fullTable_length 4096]

/-- The code size after the table-update part of an iteration: incremented
exactly when the updated table's size equals 2 ^ code_size and code_size
is below 12. -/
theorem lzw_install_code_size_eq (s : LZWState) (pos1 code : Nat) :
    (lzw_install s pos1 code).code_size =
      if (lzw_install s pos1 code).table.length = 2 ^ s.code_size ∧ s.code_size < 12
      then s.code_size + 1 else s.code_size := by
  cases hl : List.lookup code s.table <;> simp [lzw_install, hl, lzw_post]

/-- The table-update part of an iteration does not change
first_code_size. -/
theorem lzw_install_first (s : LZWState) (pos1 code : Nat) :
    (lzw_install s pos1 code).first_code_size = s.first_code_size := by
  cases hl : List.lookup code s.table <;> simp [lzw_install, hl, lzw_post]

/-- No iteration of the decode loop changes first_code_size. -/
theorem lzw_step_first (s : LZWState) :
    (lzw_resState (lzw_step s)).first_code_size = s.first_code_size := by
  simp only [lzw_step]
  split
  · rfl
  · split
    · split
      · rfl
      · rfl
    · split
      · rfl
      · simpa [lzw_resState] using lzw_install_first s _ _

/-- One iteration of the decode loop keeps code_size within
[first_code_size, 12], provided first_code_size is at most 12. -/
theorem lzw_step_code_size_bounds (s : LZWState) (h1 : s.first_code_size ≤ 12)
    (h2 : s.first_code_size ≤ s.code_size) (h3 : s.code_size ≤ 12) :
    s.first_code_size ≤ (lzw_resState (lzw_step s)).code_size ∧
    (lzw_resState (lzw_step s)).code_size ≤ 12 := by
  simp only [lzw_step]
  split
  · exact ⟨h2, h3⟩
  · split
    · split
      · exact ⟨Nat.le_refl _, h1⟩
      · exact ⟨Nat.le_refl _, h1⟩
    · split
      · exact ⟨h2, h3⟩
      · have hcs := lzw_install_code_size_eq s
          (fetch_code s.stream s.pos s.code_size).2 (fetch_code s.stream s.pos s.code_size).1
        simp only [lzw_resState]
        rw [hcs]
        split
        · rename_i hcond
          omega
        · exact ⟨h2, h3⟩

/-- The fueled decode loop keeps code_size within [first_code_size, 12],
provided first_code_size is at most 12. -/
theorem lzw_run_code_size_bounds (fuel : Nat) :
    ∀ s : LZWState, s.first_code_size ≤ 12 → s.first_code_size ≤ s.code_size →
      s.code_size ≤ 12 →
      (lzw_run fuel s).1.first_code_size ≤ (lzw_run fuel s).1.code_size ∧
      (lzw_run fuel s).1.code_size ≤ 12 ∧
      (lzw_run fuel s).1.first_code_size = s.first_code_size := by
  induction fuel with
  | zero => intro s h1 h2 h3; exact ⟨h2, h3, rfl⟩
  | succ fuel ih =>
    intro s h1 h2 h3
    have hb := lzw_step_code_size_bounds s h1 h2 h3
    have hf := lzw_step_first s
    rw [lzw_run]
    cases hstep : lzw_step s with
    | cont s' =>
      rw [hstep] at hb hf
      simp only [lzw_resState] at hb hf
      have := ih s' (by rw [hf]; exact h1) (by rw [hf]; exact hb.1) hb.2
      rw [hf] at this
      exact this
    | done s' =>
      rw [hstep] at hb hf
      simp only [lzw_resState] at hb hf
      exact ⟨by rw [hf]; exact hb.1, hb.2, hf⟩
    | stuck s' =>
      rw [hstep] at hb hf
      simp only [lzw_resState] at hb hf
      exact ⟨by rw [hf]; exact hb.1, hb.2, hf⟩

/-- C5: throughout LZW decoding, code_size stays in [first_code_size, 12]
(first_code_size is lzw_min + 1); it resets to first_code_size when the
clear code is read, never decreases on any other code, and on a non-clear,
non-EOI code it is incremented exactly when the table size after the
update equals 2 ^ code_size while code_size < 12; the bounds persist over
any number of loop iterations. -/
theorem lzw_code_size_dynamics :
    ∀ s : LZWState, s.code_size ≤ s.pos → s.first_code_size ≤ 12 →
      s.first_code_size ≤ s.code_size → s.code_size ≤ 12 →
      (s.first_code_size ≤ (lzw_resState (lzw_step s)).code_size ∧
        (lzw_resState (lzw_step s)).code_size ≤ 12) ∧
      ((fetch_code s.stream s.pos s.code_size).1 = s.clear_code →
        (lzw_resState (lzw_step s)).code_size = s.first_code_size) ∧
      ((fetch_code s.stream s.pos s.code_size).1 ≠ s.clear_code →
        s.code_size ≤ (lzw_resState (lzw_step s)).code_size) ∧
      ((fetch_code s.stream s.pos s.code_size).1 ≠ s.clear_code →
        ((lzw_resState (lzw_step s)).code_size = s.code_size + 1 ↔
          (fetch_code s.stream s.pos s.code_size).1 ≠ s.eoi_code ∧
          (lzw_resState (lzw_step s)).table.length = 2 ^ s.code_size ∧
          s.code_size < 12)) ∧
      (∀ fuel : Nat,
        s.first_code_size ≤ (lzw_run fuel s).1.code_size ∧
        (lzw_run fuel s).1.code_size ≤ 12) := by
  intro s h0 h1 h2 h3
  have hpos : ¬ s.pos < s.code_size := Nat.not_lt_of_ge h0
  refine ⟨lzw_step_code_size_bounds s h1 h2 h3, ?_, ?_, ?_, ?_⟩
  · intro hc
    simp only [lzw_step, if_neg hpos, if_pos hc]
    split
    · rfl
    · rfl
  · intro hc
    simp only [lzw_step, if_neg hpos, if_neg hc]
    split
    · exact Nat.le_refl _
    · have hcs := lzw_install_code_size_eq s
        (fetch_code s.stream s.pos s.code_size).2 (fetch_code s.stream s.pos s.code_size).1
      simp only [lzw_resState]
      rw [hcs]
      split
      · exact Nat.le_succ _
      · exact Nat.le_refl _
  · intro hc
    simp only [lzw_step, if_neg hpos, if_neg hc]
    split
    · rename_i he
      simp only [lzw_resState]
      constructor
      · intro h
        omega
      · intro h
        exact absurd he h.1
    · rename_i he
      have hcs := lzw_install_code_size_eq s
        (fetch_code s.stream s.pos s.code_size).2 (fetch_code s.stream s.pos s.code_size).1
      simp only [lzw_resState]
      rw [hcs]
      split
      · rename_i hcond
        exact ⟨fun _ => ⟨he, hcond.1, hcond.2⟩, fun _ => rfl⟩
      · rename_i hcond
        constructor
        · intro h
          omega
        · intro h
          exact absurd ⟨h.2.1, h.2.2⟩ hcond
  · intro fuel
    have := lzw_run_code_size_bounds fuel s h1 h2 h3
    rw [this.2.2] at this
    exact ⟨this.1, this.2.1⟩

/-- C5 witness: in a fresh decode state with lzw_min 2 (first code size 3)
and three zero bits remaining, one loop iteration keeps code_size within
[3, 12]. -/
theorem lzw_code_size_dynamics_witness :
    c5state.first_code_size ≤ (lzw_resState (lzw_step c5state)).code_size ∧
    (lzw_resState (lzw_step c5state)).code_size ≤ 12 :=
  (lzw_code_size_dynamics c5state (by decide) (by decide) (by decide) (by decide)).1

/-- A fold whose every step leaves position o unchanged leaves position o
unchanged. -/
theorem foldl_getD_invar {γ : Type} (f : List Nat → γ → List Nat) (l : List γ)
    (px : List Nat) (o d : Nat)
    (h : ∀ px' a, a ∈ l → (f px' a).getD o d = px'.getD o d) :
    (l.foldl f px).getD o d = px.getD o d := by
  induction l generalizing px with
  | nil => rfl
  | cons a t ih =>
    rw [List.foldl_cons, ih (f px a) (fun px' b hb => h px' b (List.mem_cons_of_mem a hb))]
    exact h px a (List.mem_cons_self a t)

/-- Writing another position of a list leaves position o unchanged. -/
theorem getD_set_ne (l : List Nat) (i o v d : Nat) (h : i ≠ o) :
    (l.set i v).getD o d = l.getD o d := by
  simp [List.getD, List.getElem?_set_ne h]

/-- Uniqueness of row and column in a row-major offset. -/
theorem offset_inj {cw a b c d : Nat} (hb : b < cw) (hd : d < cw)
    (h : a * cw + b = c * cw + d) : a = c ∧ b = d := by
  have hac : a = c := by
    rcases Nat.lt_trichotomy a c with hlt | heq | hgt
    · exfalso
      have h1 : a * cw + b < (a + 1) * cw := by
        rw [Nat.succ_mul]
        omega
      have h2 : (a + 1) * cw ≤ c * cw := Nat.mul_le_mul_right cw (Nat.succ_le_of_lt hlt)
      omega
    · exact heq
    · exfalso
      have h1 : c * cw + d < (c + 1) * cw := by
        rw [Nat.succ_mul]
        omega
      have h2 : (c + 1) * cw ≤ a * cw := Nat.mul_le_mul_right cw (Nat.succ_le_of_lt hgt)
      omega
  subst hac
  exact ⟨rfl, by omega⟩

/-- C8: a composited pixel whose decoded index equals the active
transparent index (with transparency on) leaves the canvas value at its
offset unchanged, and every canvas offset Y * canvas_width + X (X within
the canvas row) outside the image rectangle is unchanged as well, provided
the rectangle fits a canvas row (left + width at most canvas_width). -/
theorem composite_preserves :
    ∀ (pixels : List Nat) (cw : Nat) (img : ImageB) (transparent : Bool)
      (trans_idx Y X : Nat),
      img.left + img.width ≤ cw → X < cw →
      ((¬ (img.top ≤ Y ∧ Y < img.top + img.height ∧
            img.left ≤ X ∧ X < img.left + img.width)) ∨
        (transparent = true ∧
          img.index.getD
            ((row2 img.interlace img.height).getD (Y - img.top) 0 * img.width +
              (X - img.left)) 0 = trans_idx)) →
      (composite pixels cw img transparent trans_idx).getD (Y * cw + X) 0 =
        pixels.getD (Y * cw + X) 0 := by
  intro pixels cw img transparent trans_idx Y X hfit hX hskip
  simp only [composite]
  apply foldl_getD_invar
  intro px y hy
  apply foldl_getD_invar
  intro px' x hx
  have hy' : y < img.height := List.mem_range.mp hy
  have hx' : x < img.width := List.mem_range.mp hx
  split
  · rename_i hcond
    apply getD_set_ne
    intro heq
    have hlx : img.left + x < cw := by omega
    obtain ⟨hrow, hcol⟩ := offset_inj hlx hX heq
    rcases hskip with hout | ⟨htr, hidx⟩
    · exact hout ⟨by omega, by omega, by omega, by omega⟩
    · subst htr
      simp only [Bool.true_and, Bool.not_true, Bool.or_false, bne_iff_ne] at hcond
      have hyY : Y - img.top = y := by omega
      have hxX : X - img.left = x := by omega
      rw [hyY, hxX] at hidx
      exact hcond hidx
  · rfl

/-- C8 witness: a 1x1 image whose only index 0 equals the transparent
index, with transparency on, leaves the 1x1 canvas [7] unchanged at
offset 0. -/
theorem composite_preserves_witness :
    (composite [7] 1 c4img true 0).getD (0 * 1 + 0) 0 = [7].getD (0 * 1 + 0) 0 :=
  composite_preserves [7] 1 c4img true 0 0 0 (by decide) (by decide)
    (Or.inr ⟨rfl, by decide⟩)

/-- Folding the byte-prepend step starting from any accumulator appends
the accumulator behind the stream built from the empty string. -/
theorem assemble_acc (p : List Nat) :
    ∀ acc : List Bool,
      p.foldl (fun s b => to_bits8 b ++ s) acc =
        p.foldl (fun s b => to_bits8 b ++ s) [] ++ acc := by
  induction p with
  | nil => intro acc; simp
  | cons c p ih =>
    intro acc
    rw [List.foldl_cons, List.foldl_cons, ih (to_bits8 c ++ acc), ih (to_bits8 c ++ [])]
    simp

/-- Assembling one more byte appends its MSB-first bits at the end of the
stream (the source prepends each new byte in front of the accumulated
string, i.e. earlier bytes end up at the back). -/
theorem assemble_cons (b : Nat) (p : List Nat) :
    assemble_stream (b :: p) = assemble_stream p ++ to_bits8 b := by
  rw [assemble_stream, List.foldl_cons, assemble_acc p (to_bits8 b ++ [])]
  simp [assemble_stream]

/-- The assembled stream holds 8 bits per payload byte. -/
theorem assemble_length (p : List Nat) :
    (assemble_stream p).length = 8 * p.length := by
  induction p with
  | nil => rfl
  | cons b p ih =>
    rw [assemble_cons, List.length_append, ih]
    simp [to_bits8]
    omega

/-- Character 7 - j of a byte's MSB-first bit string is bit j of the
byte. -/
theorem to_bits8_getD (b j : Nat) (h : j < 8) :
    (to_bits8 b).getD (7 - j) false = b.testBit j := by
  interval_cases j <;> rfl

/-- The stream character at position length - 1 - i is payload bit i in
LSB-first global bit order. -/
theorem assemble_getD (p : List Nat) :
    ∀ i : Nat, i < 8 * p.length →
      (assemble_stream p).getD (8 * p.length - 1 - i) false = bitAt p i := by
  induction p with
  | nil => intro i hi; simp at hi
  | cons b p ih =>
    intro i hi
    simp only [List.length_cons] at hi
    rw [assemble_cons]
    by_cases h8 : i < 8
    · have hge : (assemble_stream p).length ≤ 8 * (b :: p).length - 1 - i := by
        rw [assemble_length]
        simp only [List.length_cons]
        omega
      rw [List.getD_append_right _ _ _ _ hge, assemble_length]
      have harg : 8 * (b :: p).length - 1 - i - 8 * p.length = 7 - i := by
        simp only [List.length_cons]
        omega
      rw [harg, to_bits8_getD b i h8]
      have h0 : i / 8 = 0 := Nat.div_eq_of_lt h8
      have hm : i % 8 = i := Nat.mod_eq_of_lt h8
      rw [bitAt, h0, hm, List.getD_cons_zero]
    · have hlt : 8 * (b :: p).length - 1 - i < (assemble_stream p).length := by
        rw [assemble_length]
        simp only [List.length_cons]
        omega
      rw [List.getD_append _ _ _ _ hlt]
      have hi' : i - 8 < 8 * p.length := by omega
      have harg : 8 * (b :: p).length - 1 - i = 8 * p.length - 1 - (i - 8) := by
        simp only [List.length_cons]
        omega
      rw [harg, ih (i - 8) hi']
      rw [bitAt, bitAt]
      have hdiv : i / 8 = (i - 8) / 8 + 1 := by omega
      have hmod : i % 8 = (i - 8) % 8 := by omega
      rw [hdiv, hmod, List.getD_cons_succ]

/-- The binary fold from any initial accumulator. -/
theorem stoi2_go (l : List Bool) :
    ∀ n : Nat,
      l.foldl (fun a b => 2 * a + cond b 1 0) n = n * 2 ^ l.length + stoi2 l := by
  induction l with
  | nil => intro n; simp [stoi2]
  | cons b t ih =>
    intro n
    rw [List.foldl_cons, ih (2 * n + cond b 1 0)]
    have h0 : stoi2 (b :: t) = cond b 1 0 * 2 ^ t.length + stoi2 t := by
      rw [stoi2, List.foldl_cons]
      have := ih (2 * 0 + cond b 1 0)
      simpa [stoi2] using this
    rw [h0]
    simp [List.length_cons, Nat.pow_succ]
    ring

/-- MSB-first value of a cons: the head character carries weight
2 ^ length of the tail. -/
theorem stoi2_cons (b : Bool) (l : List Bool) :
    stoi2 (b :: l) = cond b 1 0 * 2 ^ l.length + stoi2 l := by
  rw [stoi2, List.foldl_cons]
  have := stoi2_go l (2 * 0 + cond b 1 0)
  simpa [stoi2] using this

/-- Extending an LSB-first field by one more (top) bit. -/
theorem lsb_snoc (p : List Nat) :
    ∀ (cs off : Nat),
      lsb_first_field p off (cs + 1) =
        lsb_first_field p off cs + cond (bitAt p (off + cs)) 1 0 * 2 ^ cs := by
  intro cs
  induction cs with
  | zero =>
    intro off
    simp [lsb_first_field]
  | succ cs ih =>
    intro off
    rw [lsb_first_field, ih (off + 1), lsb_first_field]
    have harg : off + 1 + cs = off + (cs + 1) := by omega
    rw [harg]
    ring

/-- A single fetch_code call, issued when off bits have already been
consumed (pos = stream length - off), returns exactly payload bits
[off, off + code_size) in LSB-first global bit order. -/
theorem fetch_val (p : List Nat) :
    ∀ (cs off : Nat), off + cs ≤ 8 * p.length →
      (fetch_code (assemble_stream p) (8 * p.length - off) cs).1 =
        lsb_first_field p off cs := by
  intro cs
  induction cs with
  | zero =>
    intro off h
    simp [fetch_code, stoi2, lsb_first_field]
  | succ cs ih =>
    intro off h
    rw [fetch_code]
    have hq : 8 * p.length - off - (cs + 1) < (assemble_stream p).length := by
      rw [assemble_length]
      omega
    rw [List.drop_eq_getElem_cons hq, List.take_succ_cons]
    have hhead : (assemble_stream p)[8 * p.length - off - (cs + 1)] =
        bitAt p (off + cs) := by
      rw [← List.getD_eq_getElem _ false hq]
      have harg : 8 * p.length - off - (cs + 1) = 8 * p.length - 1 - (off + cs) := by
        omega
      rw [harg]
      exact assemble_getD p (off + cs) (by omega)
    rw [stoi2_cons, hhead]
    have htail : (assemble_stream p).drop (8 * p.length - off - (cs + 1) + 1) =
        (assemble_stream p).drop (8 * p.length - off - cs) := by
      congr 1
      omega
    rw [htail]
    have hlen : ((assemble_stream p).drop (8 * p.length - off - cs)).length = off + cs := by
      rw [List.length_drop, assemble_length]
      omega
    have htake : (((assemble_stream p).drop (8 * p.length - off - cs)).take cs).length = cs := by
      rw [List.length_take, hlen]
      omega
    have hfetch := ih off (by omega)
    rw [fetch_code] at hfetch
    have hsub : 8 * p.length - off - cs = 8 * p.length - off - (cs + 1) + 1 := by omega
    simp only at hfetch
    rw [htake, hfetch, lsb_snoc]
    ring

/-- Threading lemma: in a run of fetch_code calls starting after off
consumed bits, the k-th call returns payload bits starting at off plus the
sum of the earlier widths. -/
theorem fetch_codes_getD_aux (p : List Nat) :
    ∀ (ws : List Nat) (off k : Nat), off + ws.sum ≤ 8 * p.length → k < ws.length →
      (fetch_codes (assemble_stream p) (8 * p.length - off) ws).getD k 0 =
        lsb_first_field p (off + (ws.take k).sum) (ws.getD k 0) := by
  intro ws
  induction ws with
  | nil => intro off k h hk; simp at hk
  | cons cs ws ih =>
    intro off k h hk
    rw [List.sum_cons] at h
    rw [fetch_codes]
    cases k with
    | zero =>
      rw [List.getD_cons_zero, fetch_val p cs off (by omega)]
      simp
    | succ k =>
      rw [List.getD_cons_succ]
      have hpos : (fetch_code (assemble_stream p) (8 * p.length - off) cs).2 =
          8 * p.length - (off + cs) := by
        rw [fetch_code]
        simp only
        omega
      rw [hpos, ih (off + cs) k (by omega) (by simpa using hk)]
      simp only [List.take_succ_cons, List.sum_cons, List.getD_cons_succ]
      congr 1
      omega

/-- C6: the k-th code extracted from the assembled bit stream (with pos
starting at the stream length, as the decode loop does) equals the integer
formed by payload bits [sum of the previous code widths, sum + width k) in
LSB-first global bit order: bits are consumed from the least significant
bit of the first payload byte upward, and codes may span byte
boundaries. -/
theorem fetch_codes_bit_order :
    ∀ (payload ws : List Nat) (k : Nat),
      ws.sum ≤ 8 * payload.length → k < ws.length →
      (fetch_codes (assemble_stream payload) (assemble_stream payload).length ws).getD k 0
        = lsb_first_field payload ((ws.take k).sum) (ws.getD k 0) := by
  intro payload ws k h hk
  have h0 : (assemble_stream payload).length = 8 * payload.length - 0 := by
    rw [assemble_length]
    omega
  rw [h0, fetch_codes_getD_aux payload ws 0 k (by omega) hk]
  simp

/-- C6 witness: for the two-byte payload 0x4C 0x01 and three 3-bit codes,
the second code (k = 1) equals payload bits [3, 6), namely 1. -/
theorem fetch_codes_bit_order_witness :
    (fetch_codes (assemble_stream [0x4C, 0x01]) (assemble_stream [0x4C, 0x01]).length
        [3, 3, 3]).getD 1 0 =
      lsb_first_field [0x4C, 0x01] (([3, 3, 3].take 1).sum) ([3, 3, 3].getD 1 0) :=
  fetch_codes_bit_order [0x4C, 0x01] [3, 3, 3] 1 (by decide) (by decide)

end GifDecode
